import Mathlib

/-!
Shallow embedding of the `eventhorizon` MongoDB event store (`mongodb.go`)
and Redis event bus (`redis.go`).

Modelling conventions:
- Go strings (entity ids, event type tags, channel names) are `List Char`.
- BSON marshalling of an event is modelled as a perfect codec: the stored
  `data` field of an event record carries the event itself; wire payloads
  received from the network are `Option Event` (`none` = malformed bytes
  that fail to unmarshal).
- Handler values and factory closures are opaque identifiers (`Nat`).
- Storage and transport failures that originate outside the program
  (query errors, marshal errors, insert/update errors, connection errors)
  are injected through explicit fault oracles, one flag per call site.
- The Mongo collection `events` is a list of aggregate records; `FindId`
  with `Limit(1)` is a filter followed by `take 1`; a conditional `Update`
  updates the first matching document and fails when none matches.
-/

/-- A domain event: the Go `Event` interface exposes `EventType()` and
`AggregateID()`; the payload stands for the concrete struct fields. -/
structure Event where
  eventType : List Char
  aggregateID : List Char
  payload : Nat
deriving DecidableEq

/-- An event factory closure (`func() Event`), as an opaque identifier. -/
abbrev Factory := Nat

/-- An event handler (`EventHandler`), as an opaque identifier. -/
abbrev Handler := Nat

/-- The error values of the repository that the modelled code can return. -/
inductive StoreErr where
  | noEventsToAppend
  | couldNotLoadAggregate
  | couldNotMarshalEvent
  | couldNotSaveAggregate
  | eventNotRegistered
  | couldNotUnmarshalEvent
  | handlerAlreadySet
deriving DecidableEq

/-- Lookup in a Go map from event-type tag to a value (factories, handler
sets), modelled as an association list with at most one binding per key. -/
def lookupTag {F : Type} (tag : List Char) : List (List Char × F) → Option F
  | [] => none
  | (t, f) :: rest => if t = tag then some f else lookupTag tag rest

/-- Embedded `mongoEventRecord`: its Go fields are Type, Version, Timestamp
and Data (`typ` stands for the Go field `Type`, a Lean keyword); the `Data`
field holds the BSON-marshalled event (perfect-codec model). -/
structure mongoEventRecord where
  typ : List Char
  Version : Nat
  Timestamp : Nat
  Data : Event
deriving DecidableEq

/-- Embedded `mongoAggregateRecord`: `{AggregateID, Version, Events}`. -/
structure mongoAggregateRecord where
  AggregateID : List Char
  Version : Nat
  Events : List mongoEventRecord
deriving DecidableEq

/-- Fault oracles for the storage operations issued by `Save`, indexed by
the position of the event being processed in the batch. -/
structure SaveFaults where
  findErr : Nat → Bool
  marshalErr : Nat → Bool
  insertErr : Nat → Bool
  updateErr : Nat → Bool

/-- The all-healthy fault oracle: every storage operation succeeds. -/
def noFaults : SaveFaults :=
  ⟨fun _ => false, fun _ => false, fun _ => false, fun _ => false⟩

namespace MongoEventStore

/-- The probe `FindId(id).Limit(1).All`: all documents whose `_id` matches,
truncated to at most one result by the query limit. -/
def probe (db : List mongoAggregateRecord) (id : List Char) :
    List mongoAggregateRecord :=
  (db.filter (fun a => a.AggregateID == id)).take 1

/-- Mongo `Update(selector, change)`: rewrite the first document matching
the selector; `none` (≈ `mgo.ErrNotFound`) when no document matches. -/
def updateFirst (p : mongoAggregateRecord → Bool)
    (f : mongoAggregateRecord → mongoAggregateRecord) :
    List mongoAggregateRecord → Option (List mongoAggregateRecord)
  | [] => none
  | a :: rest =>
    if p a then some (f a :: rest)
    else
      match updateFirst p f rest with
      | none => none
      | some rest2 => some (a :: rest2)

/-- One iteration of the loop body of `MongoEventStore.Save`: probe the
stream for the event's aggregate id, marshal the event, then either insert
a fresh aggregate at version 1 or conditionally append guarded by the
probed version. `clock i` is the `time.Now()` timestamp of iteration `i`. -/
def saveEvent (flt : SaveFaults) (clock : Nat → Nat) (i : Nat)
    (db : List mongoAggregateRecord) (ev : Event) :
    Except StoreErr (List mongoAggregateRecord) :=
  if flt.findErr i then .error .couldNotLoadAggregate
  else if (probe db ev.aggregateID).length > 1 then .error .couldNotLoadAggregate
  else if flt.marshalErr i then .error .couldNotMarshalEvent
  else
    match probe db ev.aggregateID with
    | [] =>
      if flt.insertErr i || db.any (fun a => a.AggregateID == ev.aggregateID) then
        .error .couldNotSaveAggregate
      else
        .ok (db ++ [⟨ev.aggregateID, 1, [⟨ev.eventType, 1, clock i, ev⟩]⟩])
    | e0 :: _ =>
      if flt.updateErr i then .error .couldNotSaveAggregate
      else
        match updateFirst
            (fun a => a.AggregateID == ev.aggregateID && a.Version == e0.Version)
            (fun a => ⟨a.AggregateID, a.Version + 1,
                       a.Events ++ [⟨ev.eventType, e0.Version + 1, clock i, ev⟩]⟩)
            db with
        | none => .error .couldNotSaveAggregate
        | some db2 => .ok db2

/-- The `for _, event := range events` loop of `Save`: processes events in
order, stops at the first error, and after each successful commit hands the
event to the attached bus (`pub` accumulates the published events) when a
bus is configured (`hasBus`). -/
def saveLoop (flt : SaveFaults) (clock : Nat → Nat) (hasBus : Bool) :
    Nat → List mongoAggregateRecord → List Event → List Event →
    Except StoreErr Unit × List mongoAggregateRecord × List Event
  | _, db, pub, [] => (.ok (), db, pub)
  | i, db, pub, ev :: rest =>
    match saveEvent flt clock i db ev with
    | .error e => (.error e, db, pub)
    | .ok db2 => saveLoop flt clock hasBus (i + 1) db2
        (pub ++ if hasBus then [ev] else []) rest

/-- `MongoEventStore.Save`: rejects an empty batch, otherwise runs the
sequential per-event loop. Returns the result, the final state of the
`events` collection, and the list of events handed to the bus. -/
def Save (flt : SaveFaults) (clock : Nat → Nat) (hasBus : Bool)
    (db : List mongoAggregateRecord) (events : List Event) :
    Except StoreErr Unit × List mongoAggregateRecord × List Event :=
  if events.isEmpty then (.error .noEventsToAppend, db, [])
  else saveLoop flt clock hasBus 0 db [] events

/-- The decode loop of `Load`: for each stored record in order, look up the
registered factory for its type tag and unmarshal the record's data; aborts
on the first record whose type has no factory. -/
def loadRecords (factories : List (List Char × Factory)) :
    List mongoEventRecord → Except StoreErr (List Event)
  | [] => .ok []
  | r :: rest =>
    match lookupTag r.typ factories with
    | none => .error .eventNotRegistered
    | some _ =>
      match loadRecords factories rest with
      | .error e => .error e
      | .ok evs => .ok (r.Data :: evs)

/-- `MongoEventStore.Load`: `FindId(id).Limit(1).All`; a query error or
more than one match is `ErrCouldNotLoadAggregate`; no match yields the
empty sequence; otherwise the stream's records are decoded in order. -/
def Load (findErr : Bool) (factories : List (List Char × Factory))
    (db : List mongoAggregateRecord) (id : List Char) :
    Except StoreErr (List Event) :=
  if findErr then .error .couldNotLoadAggregate
  else if (probe db id).length > 1 then .error .couldNotLoadAggregate
  else
    match probe db id with
    | [] => .ok []
    | agg :: _ => loadRecords factories agg.Events

/-- `MongoEventStore.RegisterEventType`: reject a tag that already has a
factory (`ErrHandlerAlreadySet`), leaving the map untouched; otherwise add
the binding. -/
def RegisterEventType (factories : List (List Char × Factory))
    (event : Event) (factory : Factory) :
    Option StoreErr × List (List Char × Factory) :=
  if (lookupTag event.eventType factories).isSome then
    (some .handlerAlreadySet, factories)
  else
    (none, factories ++ [(event.eventType, factory)])

end MongoEventStore

/-- Embedded `RedisEventBus` state: the three handler tables, the channel
name stem `appID ++ ":events:"` (Go field `prefix`, here `pre`), and the
factory registry. The pool/connection handles are not part of the state. -/
structure RedisEventBus where
  eventHandlers : List (List Char × List Handler)
  localHandlers : List Handler
  globalHandlers : List Handler
  pre : List Char
  factories : List (List Char × Factory)
deriving DecidableEq

/-- `NewRedisEventBusWithPool`: initialises empty handler tables and
factory registry and sets the channel stem to `appID + ":events:"`. -/
def NewRedisEventBusWithPool (appID : List Char) : RedisEventBus :=
  ⟨[], [], [], appID ++ (":events:".toList), []⟩

/-- Observable actions of the bus: a handler invocation
(`handler.HandleEvent(event)`), a `log.Printf` line, or a Redis `PUBLISH`
command carrying a channel name and a payload (`none` = nil data). -/
inductive BusAction where
  | invoke (h : Handler) (e : Event)
  | logged (line : Nat)
  | publishCmd (channel : List Char) (payload : Option Event)
deriving DecidableEq

/-- Log-line identifiers for the `log.Printf` calls in the bus code. -/
def logPubConn : Nat := 0
def logPubMarshal : Nat := 1
def logPubCmd : Nat := 2
def logRecvNotRegistered : Nat := 3
def logRecvUnmarshal : Nat := 4
def logRecvTransport : Nat := 5

/-- Fault oracle for one `publishGlobal` call: a broken pooled connection,
a BSON marshal failure, and a failing `PUBLISH` command. -/
structure PubFaults where
  connErr : Bool
  marshalErr : Bool
  publishErr : Bool
deriving DecidableEq

/-- `RedisEventBus.publishGlobal` as a trace of actions: a broken
connection is only logged; a marshal failure is only logged and leaves
`data` nil; the `PUBLISH` on channel `pre ++ EventType` is issued in every
case; a failing `PUBLISH` is only logged. The function returns nothing. -/
def publishGlobal (b : RedisEventBus) (flt : PubFaults) (e : Event) :
    List BusAction :=
  (if flt.connErr then [.logged logPubConn] else []) ++
  (if flt.marshalErr then [.logged logPubMarshal] else []) ++
  [.publishCmd (b.pre ++ e.eventType)
    (if flt.marshalErr then none else some e)] ++
  (if flt.publishErr then [.logged logPubCmd] else [])

/-- `RedisEventBus.PublishEvent` as a trace: the handlers registered for
the event's type (if any), then every local handler, then the global
publication; the Go method has no error return. -/
def PublishEvent (b : RedisEventBus) (flt : PubFaults) (e : Event) :
    List BusAction :=
  (match lookupTag e.eventType b.eventHandlers with
   | some hs => hs.map (fun h => BusAction.invoke h e)
   | none => []) ++
  b.localHandlers.map (fun h => BusAction.invoke h e) ++
  publishGlobal b flt e

/-- `RedisEventBus.RegisterEventType`: same registry discipline as the
store's; a second registration for a tag is rejected and the map is left
untouched. -/
def RedisEventBus.RegisterEventType (b : RedisEventBus) (event : Event)
    (factory : Factory) : Option StoreErr × RedisEventBus :=
  if (lookupTag event.eventType b.factories).isSome then
    (some .handlerAlreadySet, b)
  else
    (none, { b with factories := b.factories ++ [(event.eventType, factory)] })

/-- `strings.TrimPrefix(s, p)` on char lists: drop `p` from the front of
`s` when it is there, otherwise return `s` unchanged. -/
def trimPre (s p : List Char) : List Char :=
  if p.isPrefixOf s then s.drop p.length else s

/-- A message produced by `redis.PubSubConn.Receive()`: a pattern-matched
message with its channel and payload (`none` = bytes that do not
unmarshal), a subscription notice with its kind and remaining count, or a
transport-level receive error. -/
inductive RedisMsg where
  | pmessage (channel : List Char) (data : Option Event)
  | subscription (kind : List Char) (count : Nat)
  | recvError
deriving DecidableEq

/-- Outcome of one iteration of the receive loop: continue with a trace of
actions, exit cleanly (`done <- true`), or exit on error (`done <- false`). -/
inductive StepRes where
  | cont (tr : List BusAction)
  | exitClean
  | exitErr
deriving DecidableEq

/-- One iteration of `RedisEventBus.receiveGlobal`: on a `PMessage`, strip
the channel stem to recover the event type, look up its factory and
unmarshal the payload (failures are logged and the message is skipped),
then invoke every global handler; on a `Subscription`, exit cleanly only
for a `punsubscribe` with count 0; on a receive error, exit uncleanly. -/
def receiveStep (b : RedisEventBus) (m : RedisMsg) : StepRes :=
  match m with
  | .pmessage channel data =>
    match lookupTag (trimPre channel b.pre) b.factories with
    | none => .cont [.logged logRecvNotRegistered]
    | some _ =>
      match data with
      | none => .cont [.logged logRecvUnmarshal]
      | some e => .cont (b.globalHandlers.map (fun h => BusAction.invoke h e))
  | .subscription kind count =>
    if kind = ("psubscribe".toList) then .cont []
    else if kind = ("punsubscribe".toList) then
      (if count = 0 then .exitClean else .cont [])
    else .cont []
  | .recvError => .exitErr

/-- `RedisEventBus.receiveGlobal` over a finite list of delivered
messages: folds `receiveStep`, stopping at the first exit. The first
component is `none` while the loop is still running, `some true` after a
clean exit and `some false` after an unclean one (the value sent on the
`done` channel); the second is the trace of actions. -/
def receiveGlobal (b : RedisEventBus) :
    List RedisMsg → Option Bool × List BusAction
  | [] => (none, [])
  | m :: rest =>
    match receiveStep b m with
    | .cont tr =>
      ((receiveGlobal b rest).1, tr ++ (receiveGlobal b rest).2)
    | .exitClean => (some true, [])
    | .exitErr => (some false, [.logged logRecvTransport])

/-! ### Helper lemmas -/

lemma range1_snoc (s n : Nat) :
    List.range' s (n + 1) = List.range' s n ++ [s + n] := by
  induction n generalizing s with
  | zero => simp
  | succ k ih => rw [List.range'_succ, ih (s + 1), List.range'_succ]; simp; omega

lemma trimPre_append (p t : List Char) : trimPre (p ++ t) p = t := by
  unfold trimPre
  rw [if_pos (by rw [List.isPrefixOf_iff_prefix]; exact List.prefix_append p t)]
  exact List.drop_left p t

namespace MongoEventStore

lemma probe_eq_nil (db : List mongoAggregateRecord) (id : List Char)
    (h : ∀ a ∈ db, (a.AggregateID == id) = false) : probe db id = [] := by
  unfold probe
  have hf : db.filter (fun a => a.AggregateID == id) = [] :=
    List.filter_eq_nil_iff.mpr (by simpa using h)
  rw [hf]; rfl

lemma probe_length_le (db : List mongoAggregateRecord) (id : List Char) :
    (probe db id).length ≤ 1 := by
  unfold probe
  calc ((db.filter (fun a => a.AggregateID == id)).take 1).length
      ≤ 1 := by rw [List.length_take]; omega

lemma probe_append_single (db : List mongoAggregateRecord)
    (agg : mongoAggregateRecord) (id : List Char)
    (h : ∀ a ∈ db, (a.AggregateID == id) = false)
    (hagg : agg.AggregateID = id) : probe (db ++ [agg]) id = [agg] := by
  unfold probe
  have hf : db.filter (fun a => a.AggregateID == id) = [] :=
    List.filter_eq_nil_iff.mpr (by simpa using h)
  rw [List.filter_append, hf]
  simp [hagg]

end MongoEventStore

namespace MongoEventStore

/-- The event records that one `Save` run appends for a batch, starting at
loop index `i` on top of an existing stream version `v`: versions
`v+1, v+2, ...` with the loop timestamps, each holding its source event. -/
def recordsFor (clock : Nat → Nat) : Nat → Nat → List Event → List mongoEventRecord
  | _, _, [] => []
  | i, v, e :: rest =>
    ⟨e.eventType, v + 1, clock i, e⟩ :: recordsFor clock (i + 1) (v + 1) rest

lemma recordsFor_map_data (clock : Nat → Nat) :
    ∀ (es : List Event) (i v : Nat),
      (recordsFor clock i v es).map (fun r => r.Data) = es := by
  intro es
  induction es with
  | nil => intro i v; rfl
  | cons e rest ih => intro i v; simp [recordsFor, ih]

lemma recordsFor_map_version (clock : Nat → Nat) :
    ∀ (es : List Event) (i v : Nat),
      (recordsFor clock i v es).map (fun r => r.Version)
        = List.range' (v + 1) es.length := by
  intro es
  induction es with
  | nil => intro i v; rfl
  | cons e rest ih =>
    intro i v
    simp [recordsFor, ih, List.range'_succ]

lemma recordsFor_typ_mem (clock : Nat → Nat) :
    ∀ (es : List Event) (i v : Nat) (r : mongoEventRecord),
      r ∈ recordsFor clock i v es → ∃ e ∈ es, r.typ = e.eventType := by
  intro es
  induction es with
  | nil => intro i v r hr; simp [recordsFor] at hr
  | cons e rest ih =>
    intro i v r hr
    rw [recordsFor] at hr
    rcases List.mem_cons.mp hr with h | h
    · exact ⟨e, by simp, by rw [h]⟩
    · obtain ⟨e2, he2, ht⟩ := ih (i + 1) (v + 1) r h
      exact ⟨e2, by simp [he2], ht⟩

lemma updateFirst_append (p : mongoAggregateRecord → Bool)
    (f : mongoAggregateRecord → mongoAggregateRecord)
    (db : List mongoAggregateRecord) (agg : mongoAggregateRecord)
    (hdb : ∀ a ∈ db, p a = false) (hagg : p agg = true) :
    updateFirst p f (db ++ [agg]) = some (db ++ [f agg]) := by
  induction db with
  | nil => simp [updateFirst, hagg]
  | cons a rest ih =>
    have ha : p a = false := hdb a (by simp)
    have hrest := ih (fun x hx => hdb x (by simp [hx]))
    simp only [List.cons_append, updateFirst, ha, Bool.false_eq_true,
      if_false, List.append_eq, hrest]

lemma loadRecords_ok (factories : List (List Char × Factory))
    (records : List mongoEventRecord)
    (h : ∀ r ∈ records, (lookupTag r.typ factories).isSome) :
    loadRecords factories records = .ok (records.map (fun r => r.Data)) := by
  induction records with
  | nil => rfl
  | cons r rest ih =>
    have hr := h r (by simp)
    obtain ⟨f, hf⟩ := Option.isSome_iff_exists.mp hr
    rw [loadRecords, hf, ih (fun x hx => h x (by simp [hx]))]
    simp

lemma saveEvent_ok_fresh (flt : SaveFaults) (clock : Nat → Nat) (i : Nat)
    (db : List mongoAggregateRecord) (ev : Event)
    (db2 : List mongoAggregateRecord)
    (hfresh : ∀ a ∈ db, (a.AggregateID == ev.aggregateID) = false)
    (h : saveEvent flt clock i db ev = .ok db2) :
    db2 = db ++ [⟨ev.aggregateID, 1, [⟨ev.eventType, 1, clock i, ev⟩]⟩] := by
  have hany : db.any (fun a => a.AggregateID == ev.aggregateID) = false := by
    rw [List.any_eq_false]
    intro a ha
    simp [hfresh a ha]
  unfold saveEvent at h
  rw [probe_eq_nil db ev.aggregateID hfresh] at h
  by_cases h1 : flt.findErr i
  · simp [h1] at h
  by_cases h2 : flt.marshalErr i
  · simp [h1, h2] at h
  by_cases h3 : flt.insertErr i
  · simp [h1, h2, h3] at h
  simp [h1, h2, h3, hany] at h
  exact h.symm

lemma saveEvent_ok_existing (flt : SaveFaults) (clock : Nat → Nat) (i : Nat)
    (db : List mongoAggregateRecord) (agg : mongoAggregateRecord) (ev : Event)
    (db2 : List mongoAggregateRecord)
    (hdb : ∀ a ∈ db, (a.AggregateID == ev.aggregateID) = false)
    (hagg : agg.AggregateID = ev.aggregateID)
    (h : saveEvent flt clock i (db ++ [agg]) ev = .ok db2) :
    db2 = db ++ [⟨agg.AggregateID, agg.Version + 1,
      agg.Events ++ [⟨ev.eventType, agg.Version + 1, clock i, ev⟩]⟩] := by
  unfold saveEvent at h
  rw [probe_append_single db agg ev.aggregateID hdb hagg] at h
  by_cases h1 : flt.findErr i
  · simp [h1] at h
  by_cases h2 : flt.marshalErr i
  · simp [h1, h2] at h
  by_cases h3 : flt.updateErr i
  · simp [h1, h2, h3] at h
  have hupd := updateFirst_append
    (fun a => a.AggregateID == ev.aggregateID && a.Version == agg.Version)
    (fun a => ⟨a.AggregateID, a.Version + 1,
      a.Events ++ [⟨ev.eventType, agg.Version + 1, clock i, ev⟩]⟩)
    db agg (fun a ha => by simp [hdb a ha]) (by simp [hagg])
  simp [h1, h2, h3, hupd] at h
  exact h.symm

lemma saveLoop_ok_existing (flt : SaveFaults) (clock : Nat → Nat)
    (hasBus : Bool) (id : List Char) :
    ∀ (events : List Event) (i : Nat) (db : List mongoAggregateRecord)
      (agg : mongoAggregateRecord) (pub : List Event),
    (∀ e ∈ events, e.aggregateID = id) →
    (∀ a ∈ db, (a.AggregateID == id) = false) →
    agg.AggregateID = id →
    (saveLoop flt clock hasBus i (db ++ [agg]) pub events).1 = .ok () →
    saveLoop flt clock hasBus i (db ++ [agg]) pub events
      = (.ok (), db ++ [⟨agg.AggregateID, agg.Version + events.length,
           agg.Events ++ recordsFor clock i agg.Version events⟩],
         pub ++ (if hasBus then events else [])) := by
  intro events
  induction events with
  | nil =>
    intro i db agg pub hid hdb hagg hok
    rw [saveLoop]
    simp [recordsFor]
  | cons ev rest ih =>
    intro i db agg pub hid hdb hagg hok
    have hevid : ev.aggregateID = id := hid ev (by simp)
    cases hse : saveEvent flt clock i (db ++ [agg]) ev with
    | error e => simp only [saveLoop, hse] at hok; simp at hok
    | ok dbx =>
      simp only [saveLoop, hse] at hok ⊢
      have hshape := saveEvent_ok_existing flt clock i db agg ev dbx
        (fun a ha => by rw [hevid]; exact hdb a ha)
        (hagg.trans hevid.symm) hse
      subst hshape
      have hrec := ih (i + 1) db
        ⟨agg.AggregateID, agg.Version + 1,
          agg.Events ++ [⟨ev.eventType, agg.Version + 1, clock i, ev⟩]⟩
        (pub ++ if hasBus then [ev] else [])
        (fun e he => hid e (by simp [he])) hdb hagg hok
      rw [hrec]
      have hver : agg.Version + 1 + rest.length = agg.Version + (rest.length + 1) := by
        omega
      have hpub : (pub ++ (if hasBus then [ev] else []))
          ++ (if hasBus then rest else [])
          = pub ++ (if hasBus then ev :: rest else []) := by
        cases hasBus <;> simp
      simp [recordsFor, List.append_assoc, hver, hpub]

lemma filter_append_single (db : List mongoAggregateRecord)
    (agg : mongoAggregateRecord) (id : List Char)
    (h : ∀ a ∈ db, (a.AggregateID == id) = false)
    (hagg : agg.AggregateID = id) :
    (db ++ [agg]).filter (fun a => a.AggregateID == id) = [agg] := by
  have hf : db.filter (fun a => a.AggregateID == id) = [] :=
    List.filter_eq_nil_iff.mpr (by simpa using h)
  rw [List.filter_append, hf]
  simp [hagg]

end MongoEventStore

/-! ### Claim theorems -/

/-- C1: saving a non-empty batch of events for a previously nonexistent
entity id, when it succeeds, makes a subsequent `Load` of that id return
exactly the batch, decoded equal and in order, and the stored stream holds
records with versions `1..N` for `N` the batch length. -/
theorem save_then_load_roundtrip
    (flt : SaveFaults) (clock : Nat → Nat) (hasBus : Bool)
    (db : List mongoAggregateRecord) (events : List Event) (id : List Char)
    (factories : List (List Char × Factory))
    (hne : events ≠ [])
    (hid : ∀ e ∈ events, e.aggregateID = id)
    (hfresh : ∀ a ∈ db, (a.AggregateID == id) = false)
    (hreg : ∀ e ∈ events, (lookupTag e.eventType factories).isSome)
    (hok : (MongoEventStore.Save flt clock hasBus db events).1 = .ok ()) :
    MongoEventStore.Load false factories
      (MongoEventStore.Save flt clock hasBus db events).2.1 id = .ok events ∧
    ∃ a, (MongoEventStore.Save flt clock hasBus db events).2.1.filter
        (fun r => r.AggregateID == id) = [a] ∧
      a.Events.map (fun r => r.Version) = List.range' 1 events.length := by
  obtain ⟨ev, rest, rfl⟩ := List.exists_cons_of_ne_nil hne
  have hevid : ev.aggregateID = id := hid ev (by simp)
  have hsave : MongoEventStore.Save flt clock hasBus db (ev :: rest)
      = MongoEventStore.saveLoop flt clock hasBus 0 db [] (ev :: rest) := by
    rw [MongoEventStore.Save]
    simp
  rw [hsave] at hok ⊢
  cases hse : MongoEventStore.saveEvent flt clock 0 db ev with
  | error e => simp only [MongoEventStore.saveLoop, hse] at hok; simp at hok
  | ok dbx =>
    simp only [MongoEventStore.saveLoop, hse] at hok ⊢
    have hshape := MongoEventStore.saveEvent_ok_fresh flt clock 0 db ev dbx
      (fun a ha => by rw [hevid]; exact hfresh a ha) hse
    subst hshape
    have hrec := MongoEventStore.saveLoop_ok_existing flt clock hasBus id rest
      1 db ⟨ev.aggregateID, 1, [⟨ev.eventType, 1, clock 0, ev⟩]⟩
      ([] ++ if hasBus then [ev] else [])
      (fun e he => hid e (by simp [he])) hfresh hevid hok
    rw [hrec]
    have hrecs : ([⟨ev.eventType, 1, clock 0, ev⟩] : List mongoEventRecord)
        ++ MongoEventStore.recordsFor clock 1 1 rest
        = MongoEventStore.recordsFor clock 0 0 (ev :: rest) := by
      simp [MongoEventStore.recordsFor]
    have hregs : ∀ r ∈ MongoEventStore.recordsFor clock 0 0 (ev :: rest),
        (lookupTag r.typ factories).isSome := by
      intro r hr
      obtain ⟨e, he, ht⟩ :=
        MongoEventStore.recordsFor_typ_mem clock (ev :: rest) 0 0 r hr
      rw [ht]
      exact hreg e he
    constructor
    · rw [MongoEventStore.Load]
      rw [if_neg (by simp)]
      rw [MongoEventStore.probe_append_single db _ id hfresh hevid]
      simp only [List.length_singleton]
      rw [if_neg (by omega)]
      simp only [hrecs]
      rw [MongoEventStore.loadRecords_ok factories _ hregs]
      rw [MongoEventStore.recordsFor_map_data]
    · refine ⟨⟨ev.aggregateID, 1 + rest.length,
        MongoEventStore.recordsFor clock 0 0 (ev :: rest)⟩, ?_, ?_⟩
      · simp only [← hrecs]
        exact MongoEventStore.filter_append_single db _ id hfresh hevid
      · rw [MongoEventStore.recordsFor_map_version]

/-- Witness for C1: two events on a fresh id round-trip through the
store. -/
theorem save_then_load_roundtrip_witness :
    (MongoEventStore.Save noFaults (fun i => i) true []
      [⟨['T'], ['A'], 10⟩, ⟨['T'], ['A'], 5⟩]).1 = .ok () ∧
    MongoEventStore.Load false [((['T']), 3)]
      (MongoEventStore.Save noFaults (fun i => i) true []
        [⟨['T'], ['A'], 10⟩, ⟨['T'], ['A'], 5⟩]).2.1 (['A'])
      = .ok [⟨['T'], ['A'], 10⟩, ⟨['T'], ['A'], 5⟩] :=
  ⟨by rfl,
    (save_then_load_roundtrip noFaults (fun i => i) true []
      [⟨['T'], ['A'], 10⟩, ⟨['T'], ['A'], 5⟩] (['A']) [((['T']), 3)]
      (by simp) (by decide) (by simp) (by decide) (by rfl)).1⟩

/-- The stream invariant of the data model: a stream document's `Version`
field equals the number of embedded event records, and the records carry
versions `1, 2, ..., Version` in sequence order. -/
def aggInv (a : mongoAggregateRecord) : Prop :=
  a.Version = a.Events.length ∧
  a.Events.map (fun r => r.Version) = List.range' 1 a.Events.length

instance instDecidableAggInv (a : mongoAggregateRecord) :
    Decidable (aggInv a) := by
  unfold aggInv
  exact inferInstance

namespace MongoEventStore

lemma updateFirst_forall {Q : mongoAggregateRecord → Prop}
    (p : mongoAggregateRecord → Bool)
    (f : mongoAggregateRecord → mongoAggregateRecord) :
    ∀ (db db2 : List mongoAggregateRecord),
    (∀ a ∈ db, Q a) →
    (∀ a, p a = true → Q a → Q (f a)) →
    updateFirst p f db = some db2 →
    ∀ a ∈ db2, Q a := by
  intro db
  induction db with
  | nil => intro db2 _ _ h; simp [updateFirst] at h
  | cons a rest ih =>
    intro db2 hall hstep h
    rw [updateFirst] at h
    by_cases hp : p a
    · rw [if_pos hp] at h
      have h2 := Option.some.inj h
      subst h2
      intro b hb
      rcases List.mem_cons.mp hb with rfl | hb2
      · exact hstep a hp (hall a (by simp))
      · exact hall b (by simp [hb2])
    · rw [if_neg hp] at h
      cases hr : updateFirst p f rest with
      | none => rw [hr] at h; simp at h
      | some rest2 =>
        rw [hr] at h
        have h2 := Option.some.inj h
        subst h2
        intro b hb
        rcases List.mem_cons.mp hb with rfl | hb2
        · exact hall b (by simp)
        · exact ih rest2 (fun x hx => hall x (by simp [hx])) hstep hr b hb2

lemma saveEvent_inv (flt : SaveFaults) (clock : Nat → Nat) (i : Nat)
    (db : List mongoAggregateRecord) (ev : Event)
    (db2 : List mongoAggregateRecord)
    (hinv : ∀ a ∈ db, aggInv a)
    (h : saveEvent flt clock i db ev = .ok db2) : ∀ a ∈ db2, aggInv a := by
  unfold saveEvent at h
  by_cases h1 : flt.findErr i
  · simp [h1] at h
  by_cases h2 : (probe db ev.aggregateID).length > 1
  · simp [h1, h2] at h
  by_cases h3 : flt.marshalErr i
  · simp [h1, h2, h3] at h
  cases hp : probe db ev.aggregateID with
  | nil =>
    by_cases h4 : flt.insertErr i || db.any (fun a => a.AggregateID == ev.aggregateID)
    · simp [h1, h2, h3, hp, h4] at h
    · simp [h1, h2, h3, hp, h4] at h
      subst h
      intro b hb
      rcases List.mem_append.mp hb with hb2 | hb2
      · exact hinv b hb2
      · rw [List.mem_singleton.mp hb2]
        constructor
        · rfl
        · rfl
  | cons e0 tail =>
    have htail : tail = [] := by
      rw [hp] at h2
      simpa using h2
    subst htail
    by_cases h4 : flt.updateErr i
    · simp [h1, h2, h3, hp, h4] at h
    cases hu : updateFirst
        (fun a => a.AggregateID == ev.aggregateID && a.Version == e0.Version)
        (fun a => ⟨a.AggregateID, a.Version + 1,
          a.Events ++ [⟨ev.eventType, e0.Version + 1, clock i, ev⟩]⟩) db with
    | none => simp [h1, h2, h3, hp, h4, hu] at h
    | some dbu =>
      simp [h1, h2, h3, hp, h4, hu] at h
      subst h
      refine updateFirst_forall _ _ db dbu hinv ?_ hu
      intro a hpa hQ
      have hver : a.Version = e0.Version := by
        have := (Bool.and_eq_true _ _).mp hpa
        exact beq_iff_eq.mp this.2
      obtain ⟨hlen, hmap⟩ := hQ
      constructor
      · simp [hlen]
      · have hv2 : e0.Version + 1 = 1 + a.Events.length := by omega
        simp only [List.map_append, hmap, List.map_cons, List.map_nil,
          List.length_append, List.length_singleton, hv2]
        rw [range1_snoc]

lemma saveLoop_inv (flt : SaveFaults) (clock : Nat → Nat) (hasBus : Bool) :
    ∀ (events : List Event) (i : Nat) (db : List mongoAggregateRecord)
      (pub : List Event),
    (∀ a ∈ db, aggInv a) →
    ∀ a ∈ (saveLoop flt clock hasBus i db pub events).2.1, aggInv a := by
  intro events
  induction events with
  | nil => intro i db pub hinv; rw [saveLoop]; exact hinv
  | cons ev rest ih =>
    intro i db pub hinv
    cases hse : saveEvent flt clock i db ev with
    | error e => simp only [saveLoop, hse]; exact hinv
    | ok dbx =>
      simp only [saveLoop, hse]
      exact ih (i + 1) dbx _ (saveEvent_inv flt clock i db ev dbx hinv hse)

end MongoEventStore

/-- C2: a successful `Save` preserves the stream invariant on every stream
document: `Version` equals the number of committed records and the
records' versions run `1..Version` in sequence order. -/
theorem Save_preserves_stream_invariant
    (flt : SaveFaults) (clock : Nat → Nat) (hasBus : Bool)
    (db : List mongoAggregateRecord) (events : List Event)
    (hinv : ∀ a ∈ db, aggInv a)
    (hok : (MongoEventStore.Save flt clock hasBus db events).1 = .ok ()) :
    ∀ a ∈ (MongoEventStore.Save flt clock hasBus db events).2.1, aggInv a := by
  unfold MongoEventStore.Save
  by_cases he : events.isEmpty
  · simp only [he, if_true]
    exact hinv
  · rw [if_neg he]
    exact MongoEventStore.saveLoop_inv flt clock hasBus events 0 db [] hinv

/-- Witness for C2 on a two-event batch over the empty store. -/
theorem Save_preserves_stream_invariant_witness :
    (MongoEventStore.Save noFaults (fun i => i) true []
      [⟨['T'], ['A'], 1⟩, ⟨['T'], ['A'], 2⟩]).1 = .ok () ∧
    ∀ a ∈ (MongoEventStore.Save noFaults (fun i => i) true []
      [⟨['T'], ['A'], 1⟩, ⟨['T'], ['A'], 2⟩]).2.1, aggInv a :=
  ⟨by rfl,
    Save_preserves_stream_invariant noFaults (fun i => i) true []
      [⟨['T'], ['A'], 1⟩, ⟨['T'], ['A'], 2⟩] (by simp) (by rfl)⟩

namespace MongoEventStore

lemma saveLoop_pub_ok (flt : SaveFaults) (clock : Nat → Nat) (hasBus : Bool) :
    ∀ (events : List Event) (i : Nat) (db : List mongoAggregateRecord)
      (pub : List Event),
    (saveLoop flt clock hasBus i db pub events).1 = .ok () →
    (saveLoop flt clock hasBus i db pub events).2.2
      = pub ++ (if hasBus then events else []) := by
  intro events
  induction events with
  | nil => intro i db pub hok; rw [saveLoop]; cases hasBus <;> simp
  | cons ev rest ih =>
    intro i db pub hok
    cases hse : saveEvent flt clock i db ev with
    | error e => simp only [saveLoop, hse] at hok; simp at hok
    | ok dbx =>
      simp only [saveLoop, hse] at hok ⊢
      rw [ih (i + 1) dbx _ hok]
      cases hasBus <;> simp

lemma saveLoop_error_split (flt : SaveFaults) (clock : Nat → Nat)
    (hasBus : Bool) :
    ∀ (events : List Event) (i : Nat) (db : List mongoAggregateRecord)
      (pub : List Event) (err : StoreErr) (db2 : List mongoAggregateRecord)
      (pub2 : List Event),
    saveLoop flt clock hasBus i db pub events = (.error err, db2, pub2) →
    ∃ k, ∃ hk : k < events.length,
      saveLoop flt clock hasBus i db pub (events.take k)
        = (.ok (), db2, pub2) ∧
      saveEvent flt clock (i + k) db2 (events.get ⟨k, hk⟩) = .error err := by
  intro events
  induction events with
  | nil => intro i db pub err db2 pub2 h; rw [saveLoop] at h; simp at h
  | cons ev rest ih =>
    intro i db pub err db2 pub2 h
    cases hse : saveEvent flt clock i db ev with
    | error e =>
      simp only [saveLoop, hse] at h
      simp only [Prod.mk.injEq] at h
      obtain ⟨he, hdb, hpub⟩ := h
      have he2 : e = err := by simpa using he
      subst he2
      subst hdb
      subst hpub
      refine ⟨0, by simp, ?_, ?_⟩
      · rw [List.take_zero, saveLoop]
      · simpa using hse
    | ok dbx =>
      simp only [saveLoop, hse] at h
      obtain ⟨k, hk, hpre, hfail⟩ :=
        ih (i + 1) dbx (pub ++ if hasBus then [ev] else []) err db2 pub2 h
      refine ⟨k + 1, by simpa using Nat.succ_lt_succ hk, ?_, ?_⟩
      · rw [List.take_succ_cons]
        simp only [saveLoop, hse]
        exact hpre
      · have hi : i + (k + 1) = i + 1 + k := by omega
        rw [hi]
        simpa using hfail

lemma saveEvent_loadErr (flt : SaveFaults) (clock : Nat → Nat) (i : Nat)
    (db : List mongoAggregateRecord) (ev : Event)
    (h : saveEvent flt clock i db ev = .error .couldNotLoadAggregate) :
    flt.findErr i = true := by
  by_cases h1 : flt.findErr i
  · exact h1
  exfalso
  unfold saveEvent at h
  have h2 : ¬ (probe db ev.aggregateID).length > 1 := by
    have := probe_length_le db ev.aggregateID
    omega
  rw [if_neg (by simpa using h1), if_neg h2] at h
  by_cases h3 : flt.marshalErr i
  · rw [if_pos h3] at h
    simp at h
  rw [if_neg h3] at h
  cases hp : probe db ev.aggregateID with
  | nil =>
    by_cases h4 : flt.insertErr i
        || db.any (fun a => a.AggregateID == ev.aggregateID)
    · simp [hp, h4] at h
    · simp [hp, h4] at h
  | cons e0 tail =>
    by_cases h4 : flt.updateErr i
    · simp [hp, h4] at h
    cases hu : updateFirst
        (fun a => a.AggregateID == ev.aggregateID && a.Version == e0.Version)
        (fun a => ⟨a.AggregateID, a.Version + 1,
          a.Events ++ [⟨ev.eventType, e0.Version + 1, clock i, ev⟩]⟩) db with
    | none => simp [hp, h4, hu] at h
    | some dbu => simp [hp, h4, hu] at h

lemma loadRecords_no_loadErr (factories : List (List Char × Factory)) :
    ∀ records, loadRecords factories records
      ≠ .error .couldNotLoadAggregate := by
  intro records
  induction records with
  | nil => simp [loadRecords]
  | cons r rest ih =>
    cases hl : lookupTag r.typ factories with
    | none => simp [loadRecords, hl]
    | some f =>
      cases hr : loadRecords factories rest with
      | error e =>
        simp [loadRecords, hl, hr]
        intro hcontra
        rw [hcontra] at hr
        exact ih hr
      | ok evs => simp [loadRecords, hl, hr]

end MongoEventStore

/-- C3: when `Save` fails while processing the event at position `k` of a
non-empty batch, it returns that error immediately: the final state and
the published events are exactly those of a successful run over the first
`k` events (no rollback, later events untouched), and the `k`-th event's
processing step fails on that state with the returned error. -/
theorem Save_partial_commit
    (flt : SaveFaults) (clock : Nat → Nat) (hasBus : Bool)
    (db : List mongoAggregateRecord) (events : List Event)
    (err : StoreErr) (db2 : List mongoAggregateRecord) (pub2 : List Event)
    (hne : events ≠ [])
    (h : MongoEventStore.Save flt clock hasBus db events
      = (.error err, db2, pub2)) :
    ∃ k, ∃ hk : k < events.length,
      MongoEventStore.saveLoop flt clock hasBus 0 db [] (events.take k)
        = (.ok (), db2, pub2) ∧
      MongoEventStore.saveEvent flt clock k db2 (events.get ⟨k, hk⟩)
        = .error err ∧
      pub2 = (if hasBus then events.take k else []) := by
  rw [MongoEventStore.Save, if_neg (by simpa using hne)] at h
  obtain ⟨k, hk, hpre, hfail⟩ := MongoEventStore.saveLoop_error_split
    flt clock hasBus events 0 db [] err db2 pub2 h
  refine ⟨k, hk, hpre, by simpa using hfail, ?_⟩
  have hp := MongoEventStore.saveLoop_pub_ok flt clock hasBus
    (events.take k) 0 db [] (by rw [hpre])
  rw [hpre] at hp
  simpa using hp

/-- Witness for C3: a three-event batch whose second event fails to
marshal leaves exactly the first event committed and published. -/
theorem Save_partial_commit_witness :
    ([⟨['T'], ['A'], 1⟩, ⟨['T'], ['A'], 2⟩, ⟨['T'], ['A'], 3⟩] :
      List Event) ≠ [] ∧
    ∃ k, ∃ hk : k < ([⟨['T'], ['A'], 1⟩, ⟨['T'], ['A'], 2⟩,
        ⟨['T'], ['A'], 3⟩] : List Event).length,
      MongoEventStore.saveLoop
          ⟨fun _ => false, fun i => i == 1, fun _ => false, fun _ => false⟩
          (fun i => i) true 0 [] []
          (([⟨['T'], ['A'], 1⟩, ⟨['T'], ['A'], 2⟩, ⟨['T'], ['A'], 3⟩] :
            List Event).take k)
        = (.ok (), [⟨['A'], 1, [⟨['T'], 1, 0, ⟨['T'], ['A'], 1⟩⟩]⟩],
           [⟨['T'], ['A'], 1⟩]) ∧
      MongoEventStore.saveEvent
          ⟨fun _ => false, fun i => i == 1, fun _ => false, fun _ => false⟩
          (fun i => i) k [⟨['A'], 1, [⟨['T'], 1, 0, ⟨['T'], ['A'], 1⟩⟩]⟩]
          (([⟨['T'], ['A'], 1⟩, ⟨['T'], ['A'], 2⟩, ⟨['T'], ['A'], 3⟩] :
            List Event).get ⟨k, hk⟩)
        = .error .couldNotMarshalEvent ∧
      ([⟨['T'], ['A'], 1⟩] : List Event)
        = (if true then ([⟨['T'], ['A'], 1⟩, ⟨['T'], ['A'], 2⟩,
            ⟨['T'], ['A'], 3⟩] : List Event).take k else []) :=
  ⟨by simp,
    Save_partial_commit
      ⟨fun _ => false, fun i => i == 1, fun _ => false, fun _ => false⟩
      (fun i => i) true []
      [⟨['T'], ['A'], 1⟩, ⟨['T'], ['A'], 2⟩, ⟨['T'], ['A'], 3⟩]
      .couldNotMarshalEvent [⟨['A'], 1, [⟨['T'], 1, 0, ⟨['T'], ['A'], 1⟩⟩]⟩]
      [⟨['T'], ['A'], 1⟩] (by simp) (by rfl)⟩

/-- C5: both in `Save`'s probe and in `Load`, the query carries a limit of
one result, so the defensive more-than-one-match branch never fires: a
`couldNotLoadAggregate` result can only come from the query's own error
flag. -/
theorem loadError_only_from_query_failure :
    (∀ (flt : SaveFaults) (clock : Nat → Nat) (hasBus : Bool)
       (db db2 : List mongoAggregateRecord) (events pub2 : List Event),
      MongoEventStore.Save flt clock hasBus db events
        = (.error .couldNotLoadAggregate, db2, pub2) →
      ∃ k, flt.findErr k = true) ∧
    (∀ (fe : Bool) (factories : List (List Char × Factory))
       (db : List mongoAggregateRecord) (id : List Char),
      MongoEventStore.Load fe factories db id
        = .error .couldNotLoadAggregate →
      fe = true) := by
  constructor
  · intro flt clock hasBus db db2 events pub2 h
    by_cases he : events.isEmpty
    · rw [MongoEventStore.Save, if_pos he] at h
      simp at h
    · rw [MongoEventStore.Save, if_neg he] at h
      obtain ⟨k, hk, hpre, hfail⟩ := MongoEventStore.saveLoop_error_split
        flt clock hasBus events 0 db [] _ db2 pub2 h
      exact ⟨k, by simpa using
        MongoEventStore.saveEvent_loadErr flt clock (0 + k) db2 _ hfail⟩
  · intro fe factories db id h
    by_cases hfe : fe
    · exact hfe
    exfalso
    rw [MongoEventStore.Load, if_neg (by simpa using hfe)] at h
    have h2 : ¬ (MongoEventStore.probe db id).length > 1 := by
      have := MongoEventStore.probe_length_le db id
      omega
    rw [if_neg h2] at h
    cases hp : MongoEventStore.probe db id with
    | nil => rw [hp] at h; simp at h
    | cons agg tail =>
      rw [hp] at h
      exact MongoEventStore.loadRecords_no_loadErr factories agg.Events h

/-- Witness for C5: a save over a failing query yields the load error and
the fault oracle indeed reported a query error. -/
theorem loadError_only_from_query_failure_witness :
    MongoEventStore.Save
        ⟨fun _ => true, fun _ => false, fun _ => false, fun _ => false⟩
        (fun i => i) true [] [⟨['T'], ['A'], 1⟩]
      = (.error .couldNotLoadAggregate, [], []) ∧
    ∃ k, (⟨fun _ => true, fun _ => false, fun _ => false, fun _ => false⟩ :
      SaveFaults).findErr k = true :=
  ⟨by rfl,
    (loadError_only_from_query_failure).1
      ⟨fun _ => true, fun _ => false, fun _ => false, fun _ => false⟩
      (fun i => i) true [] [] [⟨['T'], ['A'], 1⟩] [] (by rfl)⟩

lemma receiveStep_exitClean_iff (b : RedisEventBus) (m : RedisMsg) :
    receiveStep b m = .exitClean
      ↔ m = .subscription ("punsubscribe".toList) 0 := by
  constructor
  · intro h
    cases m with
    | pmessage c d =>
      cases hl : lookupTag (trimPre c b.pre) b.factories with
      | none => simp [receiveStep, hl] at h
      | some f => cases d <;> simp [receiveStep, hl] at h
    | subscription kind count =>
      rw [receiveStep] at h
      by_cases hk : kind = ("psubscribe".toList)
      · rw [if_pos hk] at h; simp at h
      · rw [if_neg hk] at h
        by_cases hk2 : kind = ("punsubscribe".toList)
        · rw [if_pos hk2] at h
          by_cases hc : count = 0
          · rw [hk2, hc]
          · rw [if_neg hc] at h; simp at h
        · rw [if_neg hk2] at h; simp at h
    | recvError => simp [receiveStep] at h
  · intro h
    subst h
    rw [receiveStep, if_neg (by decide), if_pos rfl, if_pos rfl]

lemma receiveStep_exitErr_iff (b : RedisEventBus) (m : RedisMsg) :
    receiveStep b m = .exitErr ↔ m = .recvError := by
  constructor
  · intro h
    cases m with
    | pmessage c d =>
      cases hl : lookupTag (trimPre c b.pre) b.factories with
      | none => simp [receiveStep, hl] at h
      | some f => cases d <;> simp [receiveStep, hl] at h
    | subscription kind count =>
      rw [receiveStep] at h
      by_cases hk : kind = ("psubscribe".toList)
      · rw [if_pos hk] at h; simp at h
      · rw [if_neg hk] at h
        by_cases hk2 : kind = ("punsubscribe".toList)
        · rw [if_pos hk2] at h
          by_cases hc : count = 0
          · rw [if_pos hc] at h; simp at h
          · rw [if_neg hc] at h; simp at h
        · rw [if_neg hk2] at h; simp at h
    | recvError => rfl
  · intro h
    subst h
    rfl

lemma receiveGlobal_exit_source (b : RedisEventBus) :
    ∀ (msgs : List RedisMsg) (bv : Bool),
    (receiveGlobal b msgs).1 = some bv →
    ∃ m ∈ msgs,
      receiveStep b m = (if bv then StepRes.exitClean else StepRes.exitErr) := by
  intro msgs
  induction msgs with
  | nil => intro bv h; simp [receiveGlobal] at h
  | cons m rest ih =>
    intro bv h
    cases hs : receiveStep b m with
    | cont tr =>
      simp only [receiveGlobal, hs] at h
      obtain ⟨m2, hm2, hstep⟩ := ih bv h
      exact ⟨m2, by simp [hm2], hstep⟩
    | exitClean =>
      simp only [receiveGlobal, hs] at h
      have hbv : true = bv := by simpa using h
      rw [← hbv]
      exact ⟨m, by simp, by simp [hs]⟩
    | exitErr =>
      simp only [receiveGlobal, hs] at h
      have hbv : false = bv := by simpa using h
      rw [← hbv]
      exact ⟨m, by simp, by simp [hs]⟩

/-- C8: a delivered message whose event type has no registered factory, or
whose payload fails to unmarshal, is logged and skipped: no handler runs
for it, the loop continues with the next message; and the loop exits only
on a `punsubscribe` notification with zero remaining subscriptions (clean)
or on a transport-level receive error (unclean). -/
theorem receiveGlobal_skips_and_exit_conditions :
    (∀ (b : RedisEventBus) (c : List Char) (d : Option Event)
       (rest : List RedisMsg),
      lookupTag (trimPre c b.pre) b.factories = none →
      receiveGlobal b (.pmessage c d :: rest)
        = ((receiveGlobal b rest).1,
           .logged logRecvNotRegistered :: (receiveGlobal b rest).2)) ∧
    (∀ (b : RedisEventBus) (c : List Char) (rest : List RedisMsg),
      (lookupTag (trimPre c b.pre) b.factories).isSome →
      receiveGlobal b (.pmessage c none :: rest)
        = ((receiveGlobal b rest).1,
           .logged logRecvUnmarshal :: (receiveGlobal b rest).2)) ∧
    (∀ (b : RedisEventBus) (msgs : List RedisMsg) (bv : Bool),
      (receiveGlobal b msgs).1 = some bv →
      ∃ m ∈ msgs, m = (if bv then RedisMsg.subscription ("punsubscribe".toList) 0
        else RedisMsg.recvError)) := by
  refine ⟨?_, ?_, ?_⟩
  · intro b c d rest hl
    simp [receiveGlobal, receiveStep, hl]
  · intro b c rest hl
    obtain ⟨f, hf⟩ := Option.isSome_iff_exists.mp hl
    simp [receiveGlobal, receiveStep, hf]
  · intro b msgs bv h
    obtain ⟨m, hm, hstep⟩ := receiveGlobal_exit_source b msgs bv h
    refine ⟨m, hm, ?_⟩
    cases bv with
    | true =>
      rw [if_pos rfl] at hstep
      simpa using (receiveStep_exitClean_iff b m).mp hstep
    | false =>
      rw [if_neg (by simp)] at hstep
      simpa using (receiveStep_exitErr_iff b m).mp hstep

/-- Witness for C8: on a bus with no registered factories, a message is
skipped with a log line and the loop keeps running on the rest. -/
theorem receiveGlobal_skips_and_exit_conditions_witness :
    lookupTag (trimPre (['z']) (⟨[], [], [], ['p'], []⟩ : RedisEventBus).pre)
        (⟨[], [], [], ['p'], []⟩ : RedisEventBus).factories = none ∧
    receiveGlobal (⟨[], [], [], ['p'], []⟩ : RedisEventBus)
        [.pmessage (['z']) none]
      = ((receiveGlobal (⟨[], [], [], ['p'], []⟩ : RedisEventBus) []).1,
         .logged logRecvNotRegistered ::
           (receiveGlobal (⟨[], [], [], ['p'], []⟩ : RedisEventBus) []).2) :=
  ⟨by rfl,
    (receiveGlobal_skips_and_exit_conditions).1
      ⟨[], [], [], ['p'], []⟩ (['z']) none [] (by rfl)⟩

/-- C4: registering a factory for an event-type tag that already has one
returns `ErrHandlerAlreadySet` and leaves the registry unchanged, in both
the Mongo event store and the Redis event bus; a subsequent lookup (as
performed by decoding) still yields the originally registered factory. -/
theorem registerEventType_duplicate_rejected
    (factories : List (List Char × Factory)) (b : RedisEventBus)
    (ev : Event) (f0 g0 f1 : Factory)
    (hm : lookupTag ev.eventType factories = some f0)
    (hb : lookupTag ev.eventType b.factories = some g0) :
    MongoEventStore.RegisterEventType factories ev f1
      = (some StoreErr.handlerAlreadySet, factories) ∧
    lookupTag ev.eventType (MongoEventStore.RegisterEventType factories ev f1).2
      = some f0 ∧
    RedisEventBus.RegisterEventType b ev f1
      = (some StoreErr.handlerAlreadySet, b) ∧
    lookupTag ev.eventType (RedisEventBus.RegisterEventType b ev f1).2.factories
      = some g0 := by
  refine ⟨?_, ?_, ?_, ?_⟩ <;>
    simp [MongoEventStore.RegisterEventType, RedisEventBus.RegisterEventType,
      hm, hb]

/-- Witness for C4 at a concrete registry with one binding. -/
theorem registerEventType_duplicate_rejected_witness :
    lookupTag (['T']) [((['T']), (7 : Factory))] = some 7 ∧
    MongoEventStore.RegisterEventType [((['T']), 7)] ⟨['T'], ['a'], 0⟩ 9
      = (some StoreErr.handlerAlreadySet, [((['T']), 7)]) :=
  ⟨by decide,
    (registerEventType_duplicate_rejected [((['T']), 7)]
      ⟨[], [], [], ['p'], [((['T']), 7)]⟩ ⟨['T'], ['a'], 0⟩ 7 7 9
      (by decide) (by decide)).1⟩

/-- C6: loading an entity id for which no stream document exists returns
the empty sequence of events and no error. -/
theorem Load_missing_id_ok_empty
    (factories : List (List Char × Factory)) (db : List mongoAggregateRecord)
    (id : List Char) (h : ∀ a ∈ db, (a.AggregateID == id) = false) :
    MongoEventStore.Load false factories db id = .ok [] := by
  unfold MongoEventStore.Load
  rw [MongoEventStore.probe_eq_nil db id h]
  rfl

/-- Witness for C6 on a store holding an unrelated stream. -/
theorem Load_missing_id_ok_empty_witness :
    (∀ a ∈ [(⟨['y'], 1, []⟩ : mongoAggregateRecord)],
      (a.AggregateID == (['x'])) = false) ∧
    MongoEventStore.Load false [] [(⟨['y'], 1, []⟩ : mongoAggregateRecord)]
      (['x']) = .ok [] :=
  ⟨by decide,
    Load_missing_id_ok_empty [] [(⟨['y'], 1, []⟩ : mongoAggregateRecord)]
      (['x']) (by decide)⟩

/-- C7: `PublishEvent` first invokes every handler registered for the
event's type, then every local-scope handler, and only afterwards performs
the remote transmission: the remainder of the trace contains no handler
invocation, only the `PUBLISH` command (and log lines); the function has
no error return, whatever the transmission faults. -/
theorem PublishEvent_dispatch_then_transmit (b : RedisEventBus)
    (flt : PubFaults) (e : Event) :
    ∃ tr, PublishEvent b flt e =
        ((lookupTag e.eventType b.eventHandlers).getD []).map
          (fun h => BusAction.invoke h e)
        ++ b.localHandlers.map (fun h => BusAction.invoke h e) ++ tr
      ∧ (∀ h ev, BusAction.invoke h ev ∉ tr)
      ∧ BusAction.publishCmd (b.pre ++ e.eventType)
          (if flt.marshalErr then none else some e) ∈ tr := by
  refine ⟨publishGlobal b flt e, ?_, ?_, ?_⟩
  · unfold PublishEvent
    cases hl : lookupTag e.eventType b.eventHandlers <;> simp [hl]
  · intro h ev
    unfold publishGlobal
    simp
  · unfold publishGlobal
    simp

/-- C9: the bus publishes on channel `pre ++ EventType` where `pre` is the
constructor-derived stem `appID ++ ":events:"`, and the receive loop
recovers the tag by trimming that stem, so the extracted tag equals the
published tag; with a registered factory, a received message on that
channel is dispatched to the global handlers with the decoded event. -/
theorem channel_tag_roundtrip (appID : List Char) (b : RedisEventBus)
    (flt : PubFaults) (e : Event)
    (hpre : b.pre = (NewRedisEventBusWithPool appID).pre) :
    BusAction.publishCmd (b.pre ++ e.eventType)
        (if flt.marshalErr then none else some e) ∈ publishGlobal b flt e ∧
    b.pre ++ e.eventType = appID ++ (":events:".toList) ++ e.eventType ∧
    trimPre (b.pre ++ e.eventType) b.pre = e.eventType ∧
    ((lookupTag e.eventType b.factories).isSome →
      receiveStep b (.pmessage (b.pre ++ e.eventType) (some e))
        = .cont (b.globalHandlers.map (fun h => BusAction.invoke h e))) := by
  refine ⟨by simp [publishGlobal], ?_, trimPre_append b.pre e.eventType, ?_⟩
  · rw [hpre]
    simp [NewRedisEventBusWithPool]
  · intro hreg
    obtain ⟨f, hf⟩ := Option.isSome_iff_exists.mp hreg
    simp [receiveStep, trimPre_append, hf]

/-- Witness for C9 on a one-factory bus with app id `a`. -/
theorem channel_tag_roundtrip_witness :
    ((⟨[], [], [], ['a'] ++ (":events:".toList), [((['T']), 5)]⟩ :
        RedisEventBus).pre = (NewRedisEventBusWithPool ['a']).pre) ∧
    trimPre ((⟨[], [], [], ['a'] ++ (":events:".toList), [((['T']), 5)]⟩ :
        RedisEventBus).pre ++ (⟨['T'], ['x'], 1⟩ : Event).eventType)
      (⟨[], [], [], ['a'] ++ (":events:".toList), [((['T']), 5)]⟩ :
        RedisEventBus).pre = (⟨['T'], ['x'], 1⟩ : Event).eventType :=
  ⟨rfl,
    (channel_tag_roundtrip ['a']
      ⟨[], [], [], ['a'] ++ (":events:".toList), [((['T']), 5)]⟩
      ⟨false, false, false⟩ ⟨['T'], ['x'], 1⟩ rfl).2.2.1⟩

/-- C10: when marshalling the event fails inside `publishGlobal`, the
failure is only logged and the `PUBLISH` command is still issued on the
event's channel with the nil payload; the transmission is not aborted. -/
theorem publishGlobal_marshal_failure_still_publishes
    (b : RedisEventBus) (e : Event) (cErr pErr : Bool) :
    BusAction.publishCmd (b.pre ++ e.eventType) none
      ∈ publishGlobal b ⟨cErr, true, pErr⟩ e ∧
    BusAction.logged logPubMarshal ∈ publishGlobal b ⟨cErr, true, pErr⟩ e := by
  unfold publishGlobal
  simp
